import Mathlib

/-!
Verification of the ttr task-runner core (src/main.rs).

This file gives a shallow embedding of the parts of the program the
claims concern: the Task/Group data model, the merge_groups algorithm,
the post-run confirmation dialog and its dispatch in main, the grid
layout computation of draw_tasks, working-directory resolution and the
config-file discovery walk of read_tasks, and the navigation state
machine of select_task.  Filesystem paths are modelled as a flag for
absoluteness plus a list of components; the std HashMap used by
merge_groups is modelled as an association list in insertion order,
with the unspecified iteration order of into_values represented by an
explicit key-ranking parameter (Rust's HashMap iterates in an order
that depends on per-process random hash state, so the ranking is an
arbitrary parameter, not a fixed function).
-/

/-- Model of a filesystem path (std::path::PathBuf): an absoluteness flag
plus the list of components. -/
structure PathL where
  absolute : Bool
  components : List String
  deriving DecidableEq, Repr

/-- Path::join: if the argument is absolute it replaces the receiver,
otherwise its components are appended. -/
def PathL.join (p q : PathL) : PathL :=
  if q.absolute then q else PathL.mk p.absolute (p.components ++ q.components)

/-- Path::parent: drop the last component; none for an empty path
(the filesystem root or the empty relative path). -/
def PathL.parent (p : PathL) : Option PathL :=
  match p.components with
  | [] => none
  | _ => some (PathL.mk p.absolute p.components.dropLast)

/-- Model of struct Task from src/main.rs. -/
structure TaskL where
  name : String
  key : Char
  cmd : String
  confirm : Bool
  clear : Bool
  working_dir : Option PathL
  env : List (String × String)
  clear_env : Bool
  deriving DecidableEq, Repr

/-- Model of struct Group from src/main.rs: a recursive tree node. -/
inductive GroupL where
  | mk (name : String) (key : Char) (groups : List GroupL) (tasks : List TaskL)

def GroupL.name : GroupL → String
  | .mk n _ _ _ => n

def GroupL.key : GroupL → Char
  | .mk _ k _ _ => k

def GroupL.groups : GroupL → List GroupL
  | .mk _ _ gs _ => gs

def GroupL.tasks : GroupL → List TaskL
  | .mk _ _ _ ts => ts

/-- Group::default(): empty name, NUL key, no children. -/
def GroupL.default : GroupL := GroupL.mk "" (Char.ofNat 0) [] []

/-- Group::is_empty. -/
def GroupL.isEmptyG (g : GroupL) : Bool :=
  g.tasks.isEmpty && g.groups.isEmpty

mutual

/-- Height of a group tree (1 for a leaf group). Used to bound the
recursion depth of the merge. -/
def depth : GroupL → Nat
  | .mk _ _ gs _ => 1 + depthList gs

def depthList : List GroupL → Nat
  | [] => 0
  | g :: gs => max (depth g) (depthList gs)

end

/-! ## Association-list model of the two HashMaps inside merge_groups -/

/-- HashMap::contains_key on an association list. -/
def containsKey (m : List (Char × α)) (k : Char) : Bool :=
  m.any (fun kv => kv.1 == k)

/-- HashMap::get (by key) on an association list. -/
def lookupKey (m : List (Char × α)) (k : Char) : Option α :=
  (m.find? (fun kv => kv.1 == k)).map (fun kv => kv.2)

/-- tasks.entry(task.key).or_insert(task): insert only when the key is
not yet present. -/
def insertTask (m : List (Char × TaskL)) (t : TaskL) : List (Char × TaskL) :=
  if containsKey m t.key then m else m ++ [(t.key, t)]

/-- similar_groups.entry(child_group.key).or_default().push(child_group):
append the group to the bucket of its key, creating the bucket if absent. -/
def pushBucket (m : List (Char × List GroupL)) (g : GroupL) : List (Char × List GroupL) :=
  match m with
  | [] => [(g.key, [g])]
  | (k, b) :: rest =>
      if k == g.key then (k, b ++ [g]) :: rest else (k, b) :: pushBucket rest g

/-- One iteration of the merge loop (lines 273-288 of main.rs): first
register every direct child group of this element into its key bucket,
then insert each direct child task unless its key is already bound to a
group bucket or already claimed by an earlier task. -/
def mergeStep (acc : List (Char × TaskL) × List (Char × List GroupL)) (g : GroupL) :
    List (Char × TaskL) × List (Char × List GroupL) :=
  let gm := g.groups.foldl pushBucket acc.2
  let tm := g.tasks.foldl (fun tm t => if containsKey gm t.key then tm else insertTask tm t) acc.1
  (tm, gm)

/-- The whole priority-order pass of merge_groups over the peer list. -/
def buildMaps (peers : List GroupL) : List (Char × TaskL) × List (Char × List GroupL) :=
  peers.foldl mergeStep ([], [])

/-- Insertion into a list sorted by the key ranking. -/
def insertSorted (h : Char → Nat) (kv : Char × α) : List (Char × α) → List (Char × α)
  | [] => [kv]
  | x :: xs => if h kv.1 ≤ h x.1 then kv :: x :: xs else x :: insertSorted h kv xs

/-- Model of HashMap iteration (into_values): the entries emitted in the
order given by the key ranking h.  Rust leaves this order unspecified
and it changes from run to run; h is the parameter capturing it. -/
def sortByKey (h : Char → Nat) (l : List (Char × α)) : List (Char × α) :=
  l.foldr (insertSorted h) []

/-- The peer filter at the top of merge_groups: keep only the elements
whose name and key equal those of the first element. -/
def mergePeers : List GroupL → List GroupL
  | [] => []
  | g0 :: rest => (g0 :: rest).filter (fun g => g.name == g0.name && g.key == g0.key)

/-- merge_groups with explicit fuel bounding the recursion depth (the
recursion of the source descends one tree level per call, so any fuel
above the height of the input is enough; the wrapper below supplies
such a fuel).  Structure mirrors lines 257-302 of main.rs. -/
def mergeGroupsF (h : Char → Nat) : Nat → List GroupL → GroupL
  | 0, _ => GroupL.default
  | fuel + 1, gs =>
    match gs with
    | [] => GroupL.default
    | g0 :: rest =>
      let peers := mergePeers (g0 :: rest)
      if peers.length == 1 then peers.headD GroupL.default
      else
        let maps := buildMaps peers
        GroupL.mk g0.name g0.key
          ((sortByKey h maps.2).map (fun kv => mergeGroupsF h fuel kv.2))
          ((sortByKey h maps.1).map (fun kv => kv.2))

/-- merge_groups (lines 257-302 of main.rs), with the hash-iteration
order h as explicit parameter.  Fuel one above the input height always
suffices (proved below by mergeGroupsF_fuel_irrelevant). -/
def mergeGroups (h : Char → Nat) (gs : List GroupL) : GroupL :=
  mergeGroupsF h (depthList gs + 1) gs

/-! ## Confirmation dialog (confirm_task) and its dispatch in main -/

/-- The key codes the program distinguishes; every other key is Other. -/
inductive KeyCodeL where
  | Enter
  | Esc
  | Backspace
  | CharKey (c : Char)
  | Other
  deriving DecidableEq, Repr

/-- A key event: its code and whether the modifier set equals exactly
CONTROL (the only modifier comparison the source makes). -/
structure KeyEvL where
  code : KeyCodeL
  ctrlMod : Bool
  deriving DecidableEq, Repr

/-- enum NextAction from src/main.rs. -/
inductive NextActionL where
  | Continue
  | Exit
  | SelectTask
  | RepeatTask
  deriving DecidableEq, Repr

/-- The key dispatch of the loop in confirm_task (lines 243-251): the
action decided by one key, none when the loop keeps waiting. -/
def confirmKeyAction : KeyCodeL → Option NextActionL
  | .Enter => some .Continue
  | .CharKey c =>
      if c = 'q' then some .Exit
      else if c = 'r' then some .RepeatTask
      else if c = 's' then some .SelectTask
      else none
  | .Esc => some .Exit
  | _ => none

/-- confirm_task over a stream of key codes: the first decisive key
determines the returned action. -/
def confirmTask (keys : List KeyCodeL) : Option NextActionL :=
  keys.findSome? confirmKeyAction

/-- What a task run leads to at the level of the two loops in main. -/
inductive RunOutcomeL where
  | toSelection
  | exitProgram
  | repeatTask
  deriving DecidableEq, Repr

/-- The match on confirm_task's result in main (lines 191-196):
Continue obeys loop_mode, Exit always leaves the select loop (hence the
program), RepeatTask reruns the task, SelectTask returns to selection. -/
def afterConfirm (loopMode : Bool) : NextActionL → RunOutcomeL
  | .Continue => if loopMode then .toSelection else .exitProgram
  | .Exit => .exitProgram
  | .RepeatTask => .repeatTask
  | .SelectTask => .toSelection

/-- The global CLI flags (struct Opts). -/
structure OptsL where
  confirm : Bool
  clear : Bool
  loop_mode : Bool
  deriving DecidableEq, Repr

/-- The tail of one task-loop iteration in main (lines 190-202), after
the child exited: whether the confirmation prompt is shown, and the
resulting loop outcome (none when the key stream never decides). -/
def runTaskStep (opts : OptsL) (task : TaskL) (exitSuccess : Bool)
    (keys : List KeyCodeL) : Bool × Option RunOutcomeL :=
  if !exitSuccess || task.confirm || opts.confirm then
    (true, (confirmTask keys).map (afterConfirm opts.loop_mode))
  else
    (false, some (if opts.loop_mode then .toSelection else .exitProgram))

/-! ## Grid layout of draw_tasks (lines 514-519) -/

/-- The columns/rows computation of draw_tasks, with the two failure
modes of the source made explicit: the usize subtraction width - 4
overflows for width below 4, and div_ceil divides by zero whenever
columns_fit is 0 (every width from 4 to 23); both abort the program,
modelled as none. -/
def drawLayout (width itemCount : Nat) : Option (Nat × Nat) :=
  if width < 4 then none
  else
    let columnsFit := (width - 4) / 20
    if columnsFit = 0 then none
    else
      let d := itemCount / columnsFit
      let r := itemCount % columnsFit
      some (columnsFit, if r > 0 then d + 1 else d)

/-! ## Working-directory resolution in read_tasks (lines 311-331) -/

/-- The rewrite applied to one task inside tasks_from_file: when the
task has a working_dir, replace it by context_dir joined with it (or by
none when the config path has no parent, mirroring Option::map). -/
def resolveTask (ctx : Option PathL) (t : TaskL) : TaskL :=
  match t.working_dir with
  | none => t
  | some wd => { t with working_dir := ctx.map (fun p => p.join wd) }

mutual

/-- tasks_from_file mutates every task reachable under the root via
Group::iter_mut; the iteration order is irrelevant because each task is
rewritten independently, so the loop is a map over the whole tree. -/
def resolveGroup (ctx : Option PathL) : GroupL → GroupL
  | .mk n k gs ts => .mk n k (resolveGroupList ctx gs) (ts.map (resolveTask ctx))

def resolveGroupList (ctx : Option PathL) : List GroupL → List GroupL
  | [] => []
  | g :: gs => resolveGroup ctx g :: resolveGroupList ctx gs

end

mutual

/-- Every task reachable in a group tree. -/
def allTasks : GroupL → List TaskL
  | .mk _ _ gs ts => ts ++ allTasksList gs

def allTasksList : List GroupL → List TaskL
  | [] => []
  | g :: gs => allTasks g ++ allTasksList gs

end

/-- tasks_from_file: wrap the parsed top-level groups and tasks into the
synthetic ROOT group and resolve every reachable working_dir against
the directory containing the config file.  The controller's current
directory plays no part. -/
def tasksFromFile (path : PathL) (gs : List GroupL) (ts : List TaskL) : GroupL :=
  resolveGroup path.parent (GroupL.mk "ROOT" '_' gs ts)

/-! ## Config discovery in read_tasks (lines 334-367) -/

/-- The fixed config file name .ttr.yaml as a relative path. -/
def ttrConfig : PathL := PathL.mk false [".ttr.yaml"]

/-- The upward walk of read_tasks: from dir towards the root, stopping
(before looking for a config file) as soon as the stop directory is
reached, collecting dir.join(.ttr.yaml) wherever isFile accepts it.
The fuel bounds the number of parent steps; one above the component
count of the start directory always suffices since parent removes one
component per step. -/
def walkF (isFile : PathL → Bool) (stopDir : PathL) : Nat → Option PathL → List PathL
  | 0, _ => []
  | _, none => []
  | fuel + 1, some d =>
    if d = stopDir then []
    else
      (if isFile (d.join ttrConfig) then [d.join ttrConfig] else []) ++
        walkF isFile stopDir fuel d.parent

/-- read_tasks, at the level of which config files are read in which
order: the upward walk from the current directory (stopping at the home
directory, or at the filesystem root when there is no home), then the
home tier, then the per-user config-directory tier. -/
def readTasksPaths (isFile : PathL → Bool) (homeDir configDir : Option PathL)
    (startDir : PathL) : List PathL :=
  let stopDir := homeDir.getD (PathL.mk true [])
  let walked := walkF isFile stopDir (startDir.components.length + 1) (some startDir)
  let homeTier :=
    match homeDir with
    | some hd => if isFile (hd.join ttrConfig) then [hd.join ttrConfig] else []
    | none => []
  let cfgTier :=
    match configDir with
    | some cd =>
        if isFile ((cd.join (PathL.mk false ["ttr"])).join ttrConfig) then
          [(cd.join (PathL.mk false ["ttr"])).join ttrConfig]
        else []
    | none => []
  walked ++ homeTier ++ cfgTier

/-! ## Navigation state machine of select_task (lines 436-507) -/

/-- Result of one iteration of the select_task loop. -/
inductive NavResultL where
  | quit
  | selected (t : TaskL)
  | browsing (stack : List GroupL)

/-- One iteration of select_task's loop: render, read one key, act.
The stack is modelled head-first: the head is the top (current group),
the last element is the bottom; Vec::push becomes cons and Vec::pop
becomes tail.  Matches the match on the key code at lines 483-504,
first arm wins: the q and space arms fire regardless of modifiers, the
general character arm requires the modifier set to differ from CONTROL,
everything else redraws with a transient error message. -/
def navStep (stack : List GroupL) (e : KeyEvL) : NavResultL :=
  let currentGroup := stack.headD GroupL.default
  match e.code with
  | .CharKey c =>
    if c = 'q' then .quit
    else if c = ' ' then .browsing stack
    else if e.ctrlMod then .browsing stack
    else
      match currentGroup.tasks.find? (fun t => t.key == c) with
      | some t => .selected t
      | none =>
        match currentGroup.groups.find? (fun g => g.key == c) with
        | some g => .browsing (g :: stack)
        | none => .browsing stack
  | .Backspace => if stack.length ≤ 1 then .browsing stack else .browsing stack.tail
  | .Esc => if stack.length ≤ 1 then .browsing stack else .browsing stack.tail
  | _ => .browsing stack

/-- The Browsing states select_task can reach from the initial stack
holding just the root. -/
inductive ReachableNav (root : GroupL) : List GroupL → Prop where
  | init : ReachableNav root [root]
  | step {st st' : List GroupL} (e : KeyEvL) :
      ReachableNav root st → navStep st e = .browsing st' → ReachableNav root st'

/-! ## Small helper lemmas -/

/-- First-defined choice between two options. -/
def firstSome (a b : Option α) : Option α :=
  match a with
  | some v => some v
  | none => b

theorem firstSome_assoc (a b c : Option α) :
    firstSome (firstSome a b) c = firstSome a (firstSome b c) := by
  cases a <;> simp [firstSome]

theorem find?_append (p : α → Bool) (l1 l2 : List α) :
    (l1 ++ l2).find? p = firstSome (l1.find? p) (l2.find? p) := by
  induction l1 with
  | nil => simp [firstSome]
  | cons x xs ih =>
      by_cases hx : p x = true
      · simp [List.find?, hx, firstSome]
      · simp only [List.cons_append, List.find?, Bool.not_eq_true] at *
        simp [hx, ih]

theorem containsKey_true_iff (m : List (Char × α)) (k : Char) :
    containsKey m k = true ↔ ∃ kv ∈ m, kv.1 = k := by
  simp [containsKey, List.any_eq_true]

theorem containsKey_false_iff (m : List (Char × α)) (k : Char) :
    containsKey m k = false ↔ ∀ kv ∈ m, kv.1 ≠ k := by
  rw [← Bool.not_eq_true, containsKey_true_iff]
  push_neg
  rfl

theorem containsKey_of_mem {m : List (Char × α)} {kv : Char × α} (hm : kv ∈ m) :
    containsKey m kv.1 = true :=
  (containsKey_true_iff m kv.1).2 ⟨kv, hm, rfl⟩

theorem lookupKey_eq_none_iff (m : List (Char × α)) (k : Char) :
    lookupKey m k = none ↔ containsKey m k = false := by
  simp [lookupKey, List.find?_eq_none, containsKey_false_iff]

theorem lookupKey_isSome_of_containsKey {m : List (Char × α)} {k : Char}
    (hc : containsKey m k = true) : ∃ v, lookupKey m k = some v := by
  rcases (containsKey_true_iff m k).1 hc with ⟨kv, hm, hk⟩
  have : (m.find? (fun kv => kv.1 == k)).isSome := by
    rw [List.find?_isSome]
    exact ⟨kv, hm, by simp [hk]⟩
  rcases Option.isSome_iff_exists.1 this with ⟨w, hw⟩
  exact ⟨w.2, by simp [lookupKey, hw]⟩

/-! ## Lemmas about the task map -/

theorem lookupKey_insertTask (m : List (Char × TaskL)) (t : TaskL) (k : Char) :
    lookupKey (insertTask m t) k =
      if t.key = k ∧ containsKey m k = false then some t else lookupKey m k := by
  by_cases hc : containsKey m t.key = true
  · simp only [insertTask, hc, if_true]
    by_cases hk : t.key = k
    · subst hk
      simp [hc]
    · simp [hk]
  · rw [Bool.not_eq_true] at hc
    simp only [insertTask, hc, Bool.false_eq_true, if_false]
    by_cases hk : t.key = k
    · subst hk
      rw [lookupKey, find?_append]
      have hnone : m.find? (fun kv => kv.1 == t.key) = none := by
        rw [List.find?_eq_none]
        intro kv hkv
        simp only [beq_iff_eq]
        exact (containsKey_false_iff m t.key).1 hc kv hkv
      simp [hnone, firstSome, hc, List.find?, lookupKey]
    · rw [lookupKey, find?_append]
      have hb : (t.key == k) = false := by simpa using hk
      have hnone : List.find? (fun kv => kv.1 == k) [(t.key, t)] = none := by
        simp [List.find?, hb]
      rw [hnone]
      cases hfm : m.find? (fun kv => kv.1 == k) <;>
        simp [firstSome, lookupKey, hfm, hk]

theorem containsKey_insertTask (m : List (Char × TaskL)) (t : TaskL) (k : Char) :
    containsKey (insertTask m t) k = (containsKey m k || t.key == k) := by
  by_cases hc : containsKey m t.key = true
  · simp only [insertTask, hc, if_true]
    by_cases hk : t.key = k
    · subst hk
      simp [hc]
    · simp [hk, Bool.or_false, beq_iff_eq]
  · rw [Bool.not_eq_true] at hc
    simp only [insertTask, hc, Bool.false_eq_true, if_false]
    simp [containsKey, List.any_append]

theorem insertTask_keyed {m : List (Char × TaskL)} (t : TaskL)
    (hm : ∀ kv ∈ m, kv.2.key = kv.1) : ∀ kv ∈ insertTask m t, kv.2.key = kv.1 := by
  intro kv hkv
  unfold insertTask at hkv
  split at hkv
  · exact hm kv hkv
  · rcases List.mem_append.1 hkv with hl | hr
    · exact hm kv hl
    · rcases List.mem_singleton.1 hr with rfl
      rfl

theorem insertTask_keys_nodup {m : List (Char × TaskL)} (t : TaskL)
    (hm : (m.map Prod.fst).Nodup) : ((insertTask m t).map Prod.fst).Nodup := by
  unfold insertTask
  split
  · exact hm
  · rename_i hc
    rw [Bool.not_eq_true] at hc
    have hnot : t.key ∉ m.map Prod.fst := by
      rw [List.mem_map]
      rintro ⟨kv, hkv, hk⟩
      exact (containsKey_false_iff m t.key).1 hc kv hkv hk
    simp only [List.map_append, List.map_cons, List.map_nil]
    rw [List.nodup_append]
    exact ⟨hm, List.nodup_singleton _, by simpa using hnot⟩

/-! ## Lemmas about the group buckets -/

theorem containsKey_pushBucket (m : List (Char × List GroupL)) (g : GroupL) (k : Char) :
    containsKey (pushBucket m g) k = (containsKey m k || g.key == k) := by
  induction m with
  | nil => simp [pushBucket, containsKey]
  | cons kv rest ih =>
      obtain ⟨k0, b⟩ := kv
      by_cases hk0 : (k0 == g.key) = true
      · have hkeq : k0 = g.key := by simpa [beq_iff_eq] using hk0
        subst hkeq
        simp only [pushBucket, hk0, if_true]
        simp only [containsKey, List.any_cons]
        cases h2 : (g.key == k) <;> simp [h2]
      · have hk0f : (k0 == g.key) = false := by simpa using hk0
        simp only [pushBucket, hk0f, Bool.false_eq_true, if_false]
        simp only [containsKey, List.any_cons] at ih ⊢
        rw [ih]
        cases h1 : (k0 == k) <;> simp

theorem containsKey_foldl_pushBucket (cs : List GroupL) (k : Char) :
    ∀ m, containsKey (cs.foldl pushBucket m) k =
      (containsKey m k || cs.any (fun c => c.key == k)) := by
  induction cs with
  | nil => intro m; simp
  | cons c rest ih =>
      intro m
      simp only [List.foldl_cons, List.any_cons]
      rw [ih, containsKey_pushBucket]
      cases h1 : containsKey m k <;> cases h2 : (c.key == k) <;> simp

theorem pushBucket_good {m : List (Char × List GroupL)} (g : GroupL)
    (hm : ∀ kv ∈ m, kv.2 ≠ [] ∧ ∀ x ∈ kv.2, x.key = kv.1) :
    ∀ kv ∈ pushBucket m g, kv.2 ≠ [] ∧ ∀ x ∈ kv.2, x.key = kv.1 := by
  induction m with
  | nil =>
      intro kv hkv
      rcases List.mem_singleton.1 hkv with rfl
      exact ⟨by simp, by simp⟩
  | cons kv0 rest ih =>
      obtain ⟨k0, b⟩ := kv0
      intro kv hkv
      by_cases hk0 : k0 == g.key
      · have hkeq : k0 = g.key := by simpa [beq_iff_eq] using hk0
        simp only [pushBucket, hk0, if_true] at hkv
        rcases List.mem_cons.1 hkv with rfl | hrest
        · refine ⟨by simp, ?_⟩
          intro x hx
          rcases List.mem_append.1 hx with hxl | hxr
          · exact (hm (k0, b) (List.mem_cons_self _ _)).2 x hxl
          · rcases List.mem_singleton.1 hxr with rfl
            exact hkeq.symm
        · exact hm kv (List.mem_cons_of_mem _ hrest)
      · simp only [pushBucket, hk0, Bool.false_eq_true, if_false] at hkv
        rcases List.mem_cons.1 hkv with rfl | hrest
        · exact hm (k0, b) (List.mem_cons_self _ _)
        · exact ih (fun kv2 h2 => hm kv2 (List.mem_cons_of_mem _ h2)) kv hrest

theorem pushBucket_keys (m : List (Char × List GroupL)) (g : GroupL) :
    (pushBucket m g).map Prod.fst =
      if containsKey m g.key then m.map Prod.fst else m.map Prod.fst ++ [g.key] := by
  induction m with
  | nil => simp [pushBucket, containsKey]
  | cons kv0 rest ih =>
      obtain ⟨k0, b⟩ := kv0
      by_cases hk0 : k0 == g.key
      · have : k0 = g.key := by simpa [beq_iff_eq] using hk0
        subst this
        simp [pushBucket, hk0, containsKey]
      · simp only [pushBucket, hk0, Bool.false_eq_true, if_false, List.map_cons]
        rw [ih]
        have : containsKey ((k0, b) :: rest) g.key = containsKey rest g.key := by
          simp only [containsKey, List.any_cons]
          have : (k0 == g.key) = false := by simpa using hk0
          simp [this]
        rw [this]
        by_cases hc : containsKey rest g.key = true <;> simp [hc]

theorem pushBucket_keys_nodup {m : List (Char × List GroupL)} (g : GroupL)
    (hm : (m.map Prod.fst).Nodup) : ((pushBucket m g).map Prod.fst).Nodup := by
  rw [pushBucket_keys]
  split
  · exact hm
  · rename_i hc
    rw [Bool.not_eq_true] at hc
    have hnot : g.key ∉ m.map Prod.fst := by
      rw [List.mem_map]
      rintro ⟨kv, hkv, hk⟩
      exact (containsKey_false_iff m g.key).1 hc kv hkv hk
    rw [List.nodup_append]
    exact ⟨hm, List.nodup_singleton _, by simpa using hnot⟩

theorem pushBucket_mem_src {m : List (Char × List GroupL)} (g : GroupL) :
    ∀ kv ∈ pushBucket m g, ∀ x ∈ kv.2, (∃ kv0 ∈ m, x ∈ kv0.2) ∨ x = g := by
  induction m with
  | nil =>
      intro kv hkv x hx
      rcases List.mem_singleton.1 hkv with rfl
      rcases List.mem_singleton.1 hx with rfl
      exact Or.inr rfl
  | cons kv0 rest ih =>
      obtain ⟨k0, b⟩ := kv0
      intro kv hkv x hx
      by_cases hk0 : k0 == g.key
      · simp only [pushBucket, hk0, if_true] at hkv
        rcases List.mem_cons.1 hkv with rfl | hrest
        · rcases List.mem_append.1 hx with hxl | hxr
          · exact Or.inl ⟨(k0, b), List.mem_cons_self _ _, hxl⟩
          · rcases List.mem_singleton.1 hxr with rfl
            exact Or.inr rfl
        · exact Or.inl ⟨kv, List.mem_cons_of_mem _ hrest, hx⟩
      · simp only [pushBucket, hk0, Bool.false_eq_true, if_false] at hkv
        rcases List.mem_cons.1 hkv with rfl | hrest
        · exact Or.inl ⟨(k0, b), List.mem_cons_self _ _, hx⟩
        · rcases ih kv hrest x hx with ⟨kv2, h2, hx2⟩ | rfl
          · exact Or.inl ⟨kv2, List.mem_cons_of_mem _ h2, hx2⟩
          · exact Or.inr rfl

/-! ## The two map components of buildMaps -/

theorem buildMaps_snd_eq (peers : List GroupL) :
    ∀ acc, (peers.foldl mergeStep acc).2 =
      peers.foldl (fun gm p => p.groups.foldl pushBucket gm) acc.2 := by
  induction peers with
  | nil => intro acc; rfl
  | cons p rest ih =>
      intro acc
      simp only [List.foldl_cons]
      rw [ih]
      rfl

theorem containsKey_buildMaps_snd (peers : List GroupL) (k : Char) :
    containsKey (buildMaps peers).2 k =
      peers.any (fun p => p.groups.any (fun c => c.key == k)) := by
  rw [buildMaps, buildMaps_snd_eq]
  suffices hgen : ∀ (ps : List GroupL) (gm : List (Char × List GroupL)),
      containsKey (ps.foldl (fun gm p => p.groups.foldl pushBucket gm) gm) k =
        (containsKey gm k || ps.any (fun p => p.groups.any (fun c => c.key == k))) by
    rw [hgen]
    simp [containsKey]
  intro ps
  induction ps with
  | nil => intro gm; simp
  | cons p rest ih =>
      intro gm
      simp only [List.foldl_cons, List.any_cons]
      rw [ih, containsKey_foldl_pushBucket]
      cases h1 : containsKey gm k <;> simp [Bool.or_assoc]

theorem foldl_pushBucket_good (cs : List GroupL) :
    ∀ m, (∀ kv ∈ m, kv.2 ≠ [] ∧ ∀ x ∈ kv.2, x.key = kv.1) →
      ∀ kv ∈ cs.foldl pushBucket m, kv.2 ≠ [] ∧ ∀ x ∈ kv.2, x.key = kv.1 := by
  induction cs with
  | nil => intro m hm; exact hm
  | cons c rest ih =>
      intro m hm
      exact ih (pushBucket m c) (pushBucket_good c hm)

theorem buildMaps_snd_good (peers : List GroupL) :
    ∀ kv ∈ (buildMaps peers).2, kv.2 ≠ [] ∧ ∀ x ∈ kv.2, x.key = kv.1 := by
  rw [buildMaps, buildMaps_snd_eq]
  suffices hgen : ∀ (ps : List GroupL) (gm : List (Char × List GroupL)),
      (∀ kv ∈ gm, kv.2 ≠ [] ∧ ∀ x ∈ kv.2, x.key = kv.1) →
      ∀ kv ∈ ps.foldl (fun gm p => p.groups.foldl pushBucket gm) gm,
        kv.2 ≠ [] ∧ ∀ x ∈ kv.2, x.key = kv.1 by
    exact hgen peers [] (by simp)
  intro ps
  induction ps with
  | nil => intro gm hgm; exact hgm
  | cons p rest ih =>
      intro gm hgm
      exact ih _ (foldl_pushBucket_good p.groups gm hgm)

theorem foldl_pushBucket_keys_nodup (cs : List GroupL) :
    ∀ m, (m.map Prod.fst).Nodup → ((cs.foldl pushBucket m).map Prod.fst).Nodup := by
  induction cs with
  | nil => intro m hm; exact hm
  | cons c rest ih =>
      intro m hm
      exact ih _ (pushBucket_keys_nodup c hm)

theorem buildMaps_snd_keys_nodup (peers : List GroupL) :
    ((buildMaps peers).2.map Prod.fst).Nodup := by
  rw [buildMaps, buildMaps_snd_eq]
  suffices hgen : ∀ (ps : List GroupL) (gm : List (Char × List GroupL)),
      (gm.map Prod.fst).Nodup →
      ((ps.foldl (fun gm p => p.groups.foldl pushBucket gm) gm).map Prod.fst).Nodup by
    exact hgen peers [] (by simp)
  intro ps
  induction ps with
  | nil => intro gm hgm; exact hgm
  | cons p rest ih =>
      intro gm hgm
      exact ih _ (foldl_pushBucket_keys_nodup p.groups gm hgm)

theorem foldl_pushBucket_mem_src (cs : List GroupL) :
    ∀ m, ∀ kv ∈ cs.foldl pushBucket m, ∀ x ∈ kv.2,
      (∃ kv0 ∈ m, x ∈ kv0.2) ∨ x ∈ cs := by
  induction cs with
  | nil => intro m kv hkv x hx; exact Or.inl ⟨kv, hkv, hx⟩
  | cons c rest ih =>
      intro m kv hkv x hx
      rcases ih (pushBucket m c) kv hkv x hx with ⟨kv0, h0, hx0⟩ | hxr
      · rcases pushBucket_mem_src c kv0 h0 x hx0 with ⟨kv1, h1, hx1⟩ | rfl
        · exact Or.inl ⟨kv1, h1, hx1⟩
        · exact Or.inr (List.mem_cons_self _ _)
      · exact Or.inr (List.mem_cons_of_mem _ hxr)

theorem buildMaps_snd_mem_src (peers : List GroupL) :
    ∀ kv ∈ (buildMaps peers).2, ∀ x ∈ kv.2, ∃ p ∈ peers, x ∈ p.groups := by
  rw [buildMaps, buildMaps_snd_eq]
  suffices hgen : ∀ (ps : List GroupL) (gm : List (Char × List GroupL)),
      ∀ kv ∈ ps.foldl (fun gm p => p.groups.foldl pushBucket gm) gm, ∀ x ∈ kv.2,
        (∃ kv0 ∈ gm, x ∈ kv0.2) ∨ ∃ p ∈ ps, x ∈ p.groups by
    intro kv hkv x hx
    rcases hgen peers [] kv hkv x hx with ⟨kv0, h0, _⟩ | hok
    · exact absurd h0 (List.not_mem_nil kv0)
    · exact hok
  intro ps
  induction ps with
  | nil => intro gm kv hkv x hx; exact Or.inl ⟨kv, hkv, hx⟩
  | cons p rest ih =>
      intro gm kv hkv x hx
      rcases ih _ kv hkv x hx with hacc | ⟨p1, hp1, hx1⟩
      · rcases hacc with ⟨kv0, h0, hx0⟩
        rcases foldl_pushBucket_mem_src p.groups gm kv0 h0 x hx0 with ⟨kv1, h1, hx1⟩ | hxp
        · exact Or.inl ⟨kv1, h1, hx1⟩
        · exact Or.inr ⟨p, List.mem_cons_self _ _, hxp⟩
      · exact Or.inr ⟨p1, List.mem_cons_of_mem _ hp1, hx1⟩

/-! ## Depth bounds and fuel irrelevance of the merge -/

theorem depth_pos (g : GroupL) : 1 ≤ depth g := by
  cases g
  simp [depth]

theorem depth_le_depthList {g : GroupL} {l : List GroupL} (hg : g ∈ l) :
    depth g ≤ depthList l := by
  induction l with
  | nil => cases hg
  | cons x xs ih =>
      rcases List.mem_cons.1 hg with rfl | hx
      · simp [depthList]
      · simp only [depthList]
        exact le_trans (ih hx) (le_max_right _ _)

theorem depthList_le_of_forall {l : List GroupL} {n : Nat}
    (hl : ∀ g ∈ l, depth g ≤ n) : depthList l ≤ n := by
  induction l with
  | nil => simp [depthList]
  | cons x xs ih =>
      simp only [depthList, max_le_iff]
      exact ⟨hl x (List.mem_cons_self _ _), ih fun g hg => hl g (List.mem_cons_of_mem _ hg)⟩

theorem depthList_filter_le (p : GroupL → Bool) (l : List GroupL) :
    depthList (l.filter p) ≤ depthList l :=
  depthList_le_of_forall fun _ hg => depth_le_depthList (List.mem_of_mem_filter hg)

theorem depthList_pos {l : List GroupL} (hl : l ≠ []) : 1 ≤ depthList l := by
  cases l with
  | nil => exact absurd rfl hl
  | cons x xs => exact le_trans (depth_pos x) (le_trans (le_max_left _ _) (le_of_eq rfl))

theorem mem_mergePeers {p : GroupL} {gs : List GroupL} (hp : p ∈ mergePeers gs) : p ∈ gs := by
  cases gs with
  | nil => cases hp
  | cons g0 rest =>
      simp only [mergePeers] at hp
      exact List.mem_of_mem_filter hp

theorem depthList_mergePeers_le (gs : List GroupL) : depthList (mergePeers gs) ≤ depthList gs :=
  depthList_le_of_forall fun _ hg => depth_le_depthList (mem_mergePeers hg)

/-- Every bucket registered during the merge pass is strictly lower than
the input list: its members are direct children of peers. -/
theorem bucket_depthList_lt {gs : List GroupL} {kv : Char × List GroupL}
    (hkv : kv ∈ (buildMaps (mergePeers gs)).2) : depthList kv.2 < depthList gs := by
  have hgood := buildMaps_snd_good (mergePeers gs) kv hkv
  have hsrc := buildMaps_snd_mem_src (mergePeers gs) kv hkv
  have hpos : 1 ≤ depthList gs := by
    rcases List.exists_mem_of_ne_nil kv.2 hgood.1 with ⟨x, hx⟩
    rcases hsrc x hx with ⟨p, hp, _⟩
    have hpgs : p ∈ gs := mem_mergePeers hp
    exact depthList_pos fun hnil => by
      rw [hnil] at hpgs
      exact (List.not_mem_nil p) hpgs
  have hall : ∀ x ∈ kv.2, depth x ≤ depthList gs - 1 := by
    intro x hx
    rcases hsrc x hx with ⟨p, hp, hxp⟩
    have h1 : depth x ≤ depthList p.groups := depth_le_depthList hxp
    have h2 : depth p = 1 + depthList p.groups := by
      cases p
      rfl
    have h3 : depth p ≤ depthList gs :=
      le_trans (depth_le_depthList (mem_mergePeers hp)) (le_of_eq rfl)
    omega
  have := depthList_le_of_forall hall
  omega

/-! ## Permutation facts about the modelled HashMap iteration -/

theorem insertSorted_perm (h : Char → Nat) (kv : Char × α) (l : List (Char × α)) :
    (insertSorted h kv l).Perm (kv :: l) := by
  induction l with
  | nil => simp [insertSorted]
  | cons x xs ih =>
      simp only [insertSorted]
      split
      · exact List.Perm.refl _
      · exact List.Perm.trans (List.Perm.cons x ih) (List.Perm.swap kv x xs)

theorem sortByKey_perm (h : Char → Nat) (l : List (Char × α)) :
    (sortByKey h l).Perm l := by
  induction l with
  | nil => simp [sortByKey]
  | cons x xs ih =>
      have : sortByKey h (x :: xs) = insertSorted h x (sortByKey h xs) := rfl
      rw [this]
      exact List.Perm.trans (insertSorted_perm h x (sortByKey h xs)) (List.Perm.cons x ih)

/-- The recursion of merge_groups never runs out of fuel: any two fuels
above the height of the input give the same result, so the wrapper's
choice is faithful to the unbounded recursion of the source. -/
theorem mergeGroupsF_fuel_irrelevant (h : Char → Nat) :
    ∀ f1 f2 gs, depthList gs < f1 → depthList gs < f2 →
      mergeGroupsF h f1 gs = mergeGroupsF h f2 gs := by
  intro f1
  induction f1 with
  | zero => intro f2 gs h1 h2; omega
  | succ f1 ih =>
      intro f2 gs h1 h2
      cases f2 with
      | zero => omega
      | succ f2 =>
          cases gs with
          | nil => simp [mergeGroupsF]
          | cons g0 rest =>
              have hdpos : 1 ≤ depthList (g0 :: rest) :=
                depthList_pos (List.cons_ne_nil _ _)
              simp only [mergeGroupsF]
              split
              · rfl
              · congr 1
                apply List.map_congr_left
                intro kv hkv
                have hkv2 : kv ∈ (buildMaps (mergePeers (g0 :: rest))).2 :=
                  (sortByKey_perm h _).mem_iff.1 hkv
                have hlt := bucket_depthList_lt hkv2
                exact ih f2 kv.2 (by omega) (by omega)

/-! ## The task-map component of buildMaps -/

theorem taskFold_keyed (gm : List (Char × List GroupL)) (ts : List TaskL) :
    ∀ tm, (∀ kv ∈ tm, kv.2.key = kv.1) →
      ∀ kv ∈ ts.foldl (fun tm t => if containsKey gm t.key then tm else insertTask tm t) tm,
        kv.2.key = kv.1 := by
  induction ts with
  | nil => intro tm htm; exact htm
  | cons t rest ih =>
      intro tm htm
      simp only [List.foldl_cons]
      split
      · exact ih tm htm
      · exact ih _ (insertTask_keyed t htm)

theorem buildMaps_fst_keyed (peers : List GroupL) :
    ∀ kv ∈ (buildMaps peers).1, kv.2.key = kv.1 := by
  rw [buildMaps]
  suffices hgen : ∀ (ps : List GroupL) acc, (∀ kv ∈ acc.1, kv.2.key = kv.1) →
      ∀ kv ∈ (ps.foldl mergeStep acc).1, kv.2.key = kv.1 by
    exact hgen peers ([], []) (by simp)
  intro ps
  induction ps with
  | nil => intro acc hacc; exact hacc
  | cons p rest ih =>
      intro acc hacc
      exact ih (mergeStep acc p) (taskFold_keyed _ p.tasks acc.1 hacc)

theorem taskFold_keys_nodup (gm : List (Char × List GroupL)) (ts : List TaskL) :
    ∀ tm, (tm.map Prod.fst).Nodup →
      (((ts.foldl (fun tm t => if containsKey gm t.key then tm else insertTask tm t) tm)).map
        Prod.fst).Nodup := by
  induction ts with
  | nil => intro tm htm; exact htm
  | cons t rest ih =>
      intro tm htm
      simp only [List.foldl_cons]
      split
      · exact ih tm htm
      · exact ih _ (insertTask_keys_nodup t htm)

theorem buildMaps_fst_keys_nodup (peers : List GroupL) :
    ((buildMaps peers).1.map Prod.fst).Nodup := by
  rw [buildMaps]
  suffices hgen : ∀ (ps : List GroupL) acc, (acc.1.map Prod.fst).Nodup →
      ((ps.foldl mergeStep acc).1.map Prod.fst).Nodup by
    exact hgen peers ([], []) (by simp)
  intro ps
  induction ps with
  | nil => intro acc hacc; exact hacc
  | cons p rest ih =>
      intro acc hacc
      exact ih (mergeStep acc p) (taskFold_keys_nodup _ p.tasks acc.1 hacc)

/-! ## What the task map holds at a fixed key -/

theorem lookupKey_taskFold (gm : List (Char × List GroupL)) (k : Char)
    (hk : containsKey gm k = false) (ts : List TaskL) :
    ∀ tm, lookupKey
        (ts.foldl (fun tm t => if containsKey gm t.key then tm else insertTask tm t) tm) k =
      firstSome (lookupKey tm k) (ts.find? (fun t => t.key == k)) := by
  induction ts with
  | nil => intro tm; cases hl : lookupKey tm k <;> simp [firstSome, hl]
  | cons t rest ih =>
      intro tm
      simp only [List.foldl_cons]
      by_cases ht : containsKey gm t.key = true
      · have hne : t.key ≠ k := by
          intro he
          rw [he] at ht
          rw [ht] at hk
          cases hk
        have hbe : (t.key == k) = false := by simpa using hne
        simp only [ht, if_true, List.find?, hbe]
        exact ih tm
      · rw [Bool.not_eq_true] at ht
        simp only [ht, Bool.false_eq_true, if_false]
        rw [ih]
        by_cases hkey : t.key = k
        · have hbe : (t.key == k) = true := by simpa using hkey
          simp only [List.find?, hbe]
          cases hl : lookupKey tm k with
          | none =>
              have hc : containsKey tm k = false := (lookupKey_eq_none_iff tm k).1 hl
              rw [lookupKey_insertTask]
              simp [hkey, hc, firstSome]
          | some v =>
              have hc : containsKey tm k = true := by
                by_contra hcf
                rw [Bool.not_eq_true] at hcf
                rw [(lookupKey_eq_none_iff tm k).2 hcf] at hl
                cases hl
              rw [lookupKey_insertTask]
              simp [hc, hl, firstSome]
        · have hbe : (t.key == k) = false := by simpa using hkey
          simp only [List.find?, hbe]
          rw [lookupKey_insertTask]
          simp [hkey]

theorem lookupKey_buildMaps_fst (peers : List GroupL) (k : Char)
    (hng : ∀ p ∈ peers, ∀ c ∈ p.groups, c.key ≠ k) :
    lookupKey (buildMaps peers).1 k =
      ((peers.map GroupL.tasks).flatten).find? (fun t => t.key == k) := by
  rw [buildMaps]
  suffices hgen : ∀ (ps : List GroupL) acc, (∀ p ∈ ps, ∀ c ∈ p.groups, c.key ≠ k) →
      containsKey acc.2 k = false →
      lookupKey (ps.foldl mergeStep acc).1 k =
        firstSome (lookupKey acc.1 k) (((ps.map GroupL.tasks).flatten).find? (fun t => t.key == k)) by
    rw [hgen peers ([], []) hng (by simp [containsKey])]
    simp [lookupKey, firstSome]
  intro ps
  induction ps with
  | nil =>
      intro acc _ _
      cases hl : lookupKey acc.1 k <;> simp [firstSome, hl]
  | cons p rest ih =>
      intro acc hng2 hacc
      have hgm : containsKey (p.groups.foldl pushBucket acc.2) k = false := by
        rw [containsKey_foldl_pushBucket, hacc]
        simp only [Bool.false_or, List.any_eq_false]
        intro c hc
        simpa using hng2 p (List.mem_cons_self _ _) c hc
      simp only [List.foldl_cons]
      rw [ih (mergeStep acc p) (fun q hq => hng2 q (List.mem_cons_of_mem _ hq)) hgm]
      have hfst : (mergeStep acc p).1 =
          p.tasks.foldl (fun tm t =>
            if containsKey (p.groups.foldl pushBucket acc.2) t.key then tm
            else insertTask tm t) acc.1 := rfl
      rw [hfst, lookupKey_taskFold _ k hgm, firstSome_assoc]
      simp only [List.map_cons, List.flatten_cons, find?_append]

/-- The task list materialised from an association map with keyed,
duplicate-free entries: filtering by a key that maps to v yields
exactly v. -/
theorem assoc_snd_filter_eq (m : List (Char × TaskL)) (k : Char) (v : TaskL)
    (hkeyed : ∀ kv ∈ m, kv.2.key = kv.1) (hnd : (m.map Prod.fst).Nodup)
    (hl : lookupKey m k = some v) :
    (m.map Prod.snd).filter (fun t => t.key == k) = [v] := by
  induction m with
  | nil => cases hl
  | cons kv0 rest ih =>
      obtain ⟨k0, v0⟩ := kv0
      simp only [List.map_cons, List.nodup_cons] at hnd
      by_cases hk0 : k0 = k
      · subst hk0
        have hv0 : v0 = v := by
          simp [lookupKey, List.find?] at hl
          exact hl
        have hkey0 : v0.key = k0 := hkeyed (k0, v0) (List.mem_cons_self _ _)
        have hbe : (v0.key == k0) = true := by simpa using hkey0
        have hrest : (rest.map Prod.snd).filter (fun t => t.key == k0) = [] := by
          rw [List.filter_eq_nil_iff]
          intro t ht
          rcases List.mem_map.1 ht with ⟨kv1, hkv1, rfl⟩
          have := hkeyed kv1 (List.mem_cons_of_mem _ hkv1)
          have hne : kv1.1 ≠ k0 := by
            intro he
            exact hnd.1 (he ▸ List.mem_map_of_mem Prod.fst hkv1)
          simp [this, hne]
        rw [← hv0]
        simp [List.filter, hbe, hrest]
      · have hbe : (k0 == k) = false := by simpa using hk0
        have hlr : lookupKey rest k = some v := by
          simpa [lookupKey, List.find?, hbe] using hl
        have hkey0 : v0.key = k0 := hkeyed (k0, v0) (List.mem_cons_self _ _)
        have hbne : (v0.key == k) = false := by
          rw [hkey0]
          exact hbe
        simp only [List.map_cons, List.filter, hbne]
        exact ih (fun kv h => hkeyed kv (List.mem_cons_of_mem _ h)) hnd.2 hlr

/-! ## Key-k tasks never enter the map once a key-k group bucket exists -/

theorem containsKey_taskFold_of_keys_ne (gm : List (Char × List GroupL)) (k : Char)
    (ts : List TaskL) (hts : ∀ t ∈ ts, t.key ≠ k) :
    ∀ tm, containsKey
        (ts.foldl (fun tm t => if containsKey gm t.key then tm else insertTask tm t) tm) k =
      containsKey tm k := by
  induction ts with
  | nil => intro tm; rfl
  | cons t rest ih =>
      intro tm
      simp only [List.foldl_cons]
      have hne : (t.key == k) = false := by
        simpa using hts t (List.mem_cons_self _ _)
      have ih2 := ih (fun t2 h2 => hts t2 (List.mem_cons_of_mem _ h2))
      split
      · exact ih2 tm
      · rw [ih2, containsKey_insertTask, hne, Bool.or_false]

theorem containsKey_taskFold_of_gm (gm : List (Char × List GroupL)) (k : Char)
    (hgm : containsKey gm k = true) (ts : List TaskL) :
    ∀ tm, containsKey
        (ts.foldl (fun tm t => if containsKey gm t.key then tm else insertTask tm t) tm) k =
      containsKey tm k := by
  induction ts with
  | nil => intro tm; rfl
  | cons t rest ih =>
      intro tm
      simp only [List.foldl_cons]
      by_cases ht : containsKey gm t.key = true
      · simp only [ht, if_true]
        exact ih tm
      · have hne : (t.key == k) = false := by
          simp only [beq_eq_false_iff_ne, ne_eq]
          intro he
          rw [he] at ht
          exact ht hgm
        rw [Bool.not_eq_true] at ht
        simp only [ht, Bool.false_eq_true, if_false]
        rw [ih, containsKey_insertTask, hne, Bool.or_false]

theorem C1_pre_fold (k : Char) (pre : List GroupL)
    (hpre : ∀ p ∈ pre, ∀ t ∈ p.tasks, t.key ≠ k) :
    ∀ acc, containsKey acc.1 k = false →
      containsKey (pre.foldl mergeStep acc).1 k = false := by
  induction pre with
  | nil => intro acc hacc; exact hacc
  | cons p rest ih =>
      intro acc hacc
      simp only [List.foldl_cons]
      refine ih (fun q hq => hpre q (List.mem_cons_of_mem _ hq)) (mergeStep acc p) ?_
      have hfst : (mergeStep acc p).1 =
          p.tasks.foldl (fun tm t =>
            if containsKey (p.groups.foldl pushBucket acc.2) t.key then tm
            else insertTask tm t) acc.1 := rfl
      rw [hfst, containsKey_taskFold_of_keys_ne _ k p.tasks
        (hpre p (List.mem_cons_self _ _)), hacc]

theorem C1_suf_fold (k : Char) (suf : List GroupL) :
    ∀ acc, containsKey acc.2 k = true → containsKey acc.1 k = false →
      containsKey (suf.foldl mergeStep acc).1 k = false := by
  induction suf with
  | nil => intro acc _ hacc; exact hacc
  | cons p rest ih =>
      intro acc hgm hacc
      simp only [List.foldl_cons]
      have hgm2 : containsKey (p.groups.foldl pushBucket acc.2) k = true := by
        rw [containsKey_foldl_pushBucket, hgm]
        rfl
      refine ih (mergeStep acc p) hgm2 ?_
      have hfst : (mergeStep acc p).1 =
          p.tasks.foldl (fun tm t =>
            if containsKey (p.groups.foldl pushBucket acc.2) t.key then tm
            else insertTask tm t) acc.1 := rfl
      rw [hfst, containsKey_taskFold_of_gm _ k hgm2 p.tasks, hacc]

/-! ## Unfolding the merge body -/

theorem mergeGroups_body (h : Char → Nat) (g0 : GroupL) (rest : List GroupL)
    (hlen : ((mergePeers (g0 :: rest)).length == 1) = false) :
    mergeGroups h (g0 :: rest) =
      GroupL.mk g0.name g0.key
        ((sortByKey h (buildMaps (mergePeers (g0 :: rest))).2).map
          (fun kv => mergeGroupsF h (depthList (g0 :: rest)) kv.2))
        ((sortByKey h (buildMaps (mergePeers (g0 :: rest))).1).map (fun kv => kv.2)) := by
  rw [mergeGroups]
  simp only [mergeGroupsF, hlen, Bool.false_eq_true, if_false]

/-! ## Fixtures shared by the concrete evaluations below -/

/-- A task with the given name and key and defaulted remaining fields. -/
def mkTask (n : String) (k : Char) : TaskL :=
  TaskL.mk n k "cmd" false false none [] false

/-- One concrete possible hash-iteration order: code-point order. -/
def hChar : Char → Nat := Char.toNat

/-- Another possible hash-iteration order: reversed code-point order. -/
def hCharRev : Char → Nat := fun c => 1114112 - c.toNat

/-- Higher-priority source: a direct child task keyed x. -/
def c1SrcA : GroupL := GroupL.mk "ROOT" '_' [] [mkTask "t" 'x']

/-- Lower-priority source: a direct child group keyed x. -/
def c1SrcB : GroupL := GroupL.mk "ROOT" '_' [GroupL.mk "g" 'x' [] []] []

/-- Claim C1 counterexample: when the colliding group key arrives only
from a source processed after the task's source, merge_groups emits
both a Task and a Group with the same key x as direct children of the
merged root, so the final output does contain such a clash. -/
theorem C1_counterexample :
    ∃ t ∈ (mergeGroups hChar [c1SrcA, c1SrcB]).tasks,
      ∃ g ∈ (mergeGroups hChar [c1SrcA, c1SrcB]).groups, t.key = g.key := by
  decide

/-- Claim C1 (amended): the group-over-task rule holds exactly when the
group bucket is registered no later than the clashing tasks are
evaluated: if some peer pj contributes a direct child group with key k
and no peer strictly before pj contributes a direct child task with
key k, then the merged output contains no task with key k.  (When the
only key-k groups come from sources after a key-k task, both survive;
see C1_counterexample.) -/
theorem C1_group_shadows_tasks (h : Char → Nat) (gs : List GroupL) (k : Char)
    (pre suf : List GroupL) (pj : GroupL)
    (hsplit : mergePeers gs = pre ++ pj :: suf)
    (hlen : (mergePeers gs).length ≠ 1)
    (hg : ∃ c ∈ pj.groups, c.key = k)
    (hpre : ∀ p ∈ pre, ∀ t ∈ p.tasks, t.key ≠ k) :
    k ∉ (mergeGroups h gs).tasks.map TaskL.key := by
  cases gs with
  | nil =>
      rw [show mergePeers [] = [] from rfl] at hsplit
      exact absurd hsplit.symm (List.append_ne_nil_of_right_ne_nil _ (List.cons_ne_nil _ _))
  | cons g0 rest =>
      have hlenb : ((mergePeers (g0 :: rest)).length == 1) = false := by
        simpa using hlen
      have htm : containsKey (buildMaps (mergePeers (g0 :: rest))).1 k = false := by
        rw [buildMaps, hsplit, List.foldl_append, List.foldl_cons]
        have h1 : containsKey (List.foldl mergeStep ([], []) pre).1 k = false :=
          C1_pre_fold k pre hpre ([], []) (by simp [containsKey])
        have hgm2 : containsKey (mergeStep (List.foldl mergeStep ([], []) pre) pj).2 k = true := by
          have heq : (mergeStep (List.foldl mergeStep ([], []) pre) pj).2 =
              pj.groups.foldl pushBucket (List.foldl mergeStep ([], []) pre).2 := rfl
          rw [heq, containsKey_foldl_pushBucket]
          rcases hg with ⟨c, hc, hck⟩
          have hany : pj.groups.any (fun c => c.key == k) = true := by
            rw [List.any_eq_true]
            exact ⟨c, hc, by simpa using hck⟩
          rw [hany, Bool.or_true]
        have hfst2 : containsKey (mergeStep (List.foldl mergeStep ([], []) pre) pj).1 k = false := by
          have heq : (mergeStep (List.foldl mergeStep ([], []) pre) pj).1 =
              pj.tasks.foldl (fun tm t =>
                if containsKey
                    (pj.groups.foldl pushBucket (List.foldl mergeStep ([], []) pre).2) t.key
                then tm else insertTask tm t) (List.foldl mergeStep ([], []) pre).1 := rfl
          have hgm2b : containsKey
              (pj.groups.foldl pushBucket (List.foldl mergeStep ([], []) pre).2) k = true := hgm2
          rw [heq, containsKey_taskFold_of_gm _ k hgm2b pj.tasks, h1]
        exact C1_suf_fold k suf _ hgm2 hfst2
      intro hkmem
      rw [mergeGroups_body h g0 rest hlenb] at hkmem
      simp only [GroupL.tasks] at hkmem
      rcases List.mem_map.1 hkmem with ⟨t, ht, htk⟩
      rcases List.mem_map.1 ht with ⟨kv, hkv, rfl⟩
      have hkv2 : kv ∈ (buildMaps (mergePeers (g0 :: rest))).1 :=
        (sortByKey_perm h _).mem_iff.1 hkv
      have hkeyed := buildMaps_fst_keyed _ kv hkv2
      have hck := containsKey_of_mem hkv2
      rw [show kv.1 = k from hkeyed ▸ htk] at hck
      rw [hck] at htm
      cases htm

/-- Group source registered first, task of the same key arriving later:
the amended C1 applies and the task is dropped. -/
def c1wA : GroupL := GroupL.mk "ROOT" '_' [GroupL.mk "g" 'x' [] []] []

/-- Later source contributing the clashing task keyed x. -/
def c1wB : GroupL := GroupL.mk "ROOT" '_' [] [mkTask "t" 'x']

/-- Claim C1 witness: concrete instance of the amended statement. -/
theorem C1_witness : 'x' ∉ (mergeGroups hChar [c1wA, c1wB]).tasks.map TaskL.key :=
  C1_group_shadows_tasks hChar [c1wA, c1wB] 'x' [] [c1wB] c1wA rfl
    (by decide) (by decide) (by simp)

/-- Claim C2: when two or more peer sources each contribute a direct
child task with key k and no peer contributes a direct child group with
key k, the merged group keeps exactly the key-k task of the earliest
(highest-priority) source - the first key-k task of the concatenated
task lists in priority order - and drops every later key-k task. -/
theorem C2_task_dedup (h : Char → Nat) (gs : List GroupL) (k : Char)
    (pre mid suf : List GroupL) (p1 p2 : GroupL)
    (hsplit : mergePeers gs = pre ++ p1 :: mid ++ p2 :: suf)
    (h1 : ∃ t ∈ p1.tasks, t.key = k)
    (_hp2 : ∃ t ∈ p2.tasks, t.key = k)
    (hng : ∀ p ∈ mergePeers gs, ∀ c ∈ p.groups, c.key ≠ k) :
    ∃ t0, (((mergePeers gs).map GroupL.tasks).flatten).find? (fun t => t.key == k) = some t0 ∧
      (mergeGroups h gs).tasks.filter (fun t => t.key == k) = [t0] := by
  cases gs with
  | nil =>
      rw [show mergePeers [] = [] from rfl] at hsplit
      exact absurd hsplit.symm (List.append_ne_nil_of_right_ne_nil _ (List.cons_ne_nil _ _))
  | cons g0 rest =>
      have hlenb : ((mergePeers (g0 :: rest)).length == 1) = false := by
        rw [hsplit]
        simp only [List.length_append, List.length_cons, beq_eq_false_iff_ne, ne_eq]
        omega
      have hlook : lookupKey (buildMaps (mergePeers (g0 :: rest))).1 k =
          (((mergePeers (g0 :: rest)).map GroupL.tasks).flatten).find? (fun t => t.key == k) :=
        lookupKey_buildMaps_fst _ k hng
      have hsome : ∃ t0,
          (((mergePeers (g0 :: rest)).map GroupL.tasks).flatten).find?
            (fun t => t.key == k) = some t0 := by
        rcases h1 with ⟨t, ht, htk⟩
        have htmem : t ∈ ((mergePeers (g0 :: rest)).map GroupL.tasks).flatten := by
          rw [List.mem_flatten]
          refine ⟨p1.tasks, List.mem_map_of_mem GroupL.tasks ?_, ht⟩
          rw [hsplit]
          exact List.mem_append_left _ (List.mem_append_right _ (List.mem_cons_self _ _))
        have hs : (((mergePeers (g0 :: rest)).map GroupL.tasks).flatten.find?
            (fun t => t.key == k)).isSome :=
          List.find?_isSome.2 ⟨t, htmem, by simpa using htk⟩
        exact Option.isSome_iff_exists.1 hs
      rcases hsome with ⟨t0, hfind⟩
      refine ⟨t0, hfind, ?_⟩
      have hlook0 : lookupKey (buildMaps (mergePeers (g0 :: rest))).1 k = some t0 := by
        rw [hlook, hfind]
      have hbase : ((buildMaps (mergePeers (g0 :: rest))).1.map Prod.snd).filter
          (fun t => t.key == k) = [t0] :=
        assoc_snd_filter_eq _ k t0 (buildMaps_fst_keyed _) (buildMaps_fst_keys_nodup _) hlook0
      rw [mergeGroups_body h g0 rest hlenb]
      simp only [GroupL.tasks]
      have hperm : ((sortByKey h (buildMaps (mergePeers (g0 :: rest))).1).map
            (fun kv => kv.2)).Perm
          ((buildMaps (mergePeers (g0 :: rest))).1.map Prod.snd) :=
        (sortByKey_perm h _).map _
      have hpf := hperm.filter (fun t => t.key == k)
      rw [hbase] at hpf
      exact hpf.eq_singleton

/-- Higher-priority source for the C2 witness: task b named first. -/
def c2wA : GroupL := GroupL.mk "ROOT" '_' [] [mkTask "first" 'b']

/-- Lower-priority source for the C2 witness: task b named second. -/
def c2wB : GroupL := GroupL.mk "ROOT" '_' [] [mkTask "second" 'b']

/-- Claim C2 witness: with two sources both defining key b, the merge
keeps only the higher-priority task, named first. -/
theorem C2_witness :
    ∃ t0, (((mergePeers [c2wA, c2wB]).map GroupL.tasks).flatten).find?
        (fun t => t.key == 'b') = some t0 ∧
      (mergeGroups hChar [c2wA, c2wB]).tasks.filter (fun t => t.key == 'b') = [t0] :=
  C2_task_dedup hChar [c2wA, c2wB] 'b' [] [] [] c2wA c2wB rfl
    (by decide) (by decide) (by decide)

/-! ## Distinctness of the merged children keys -/

theorem mergePeers_head (g0 : GroupL) (rest : List GroupL) :
    mergePeers (g0 :: rest) =
      g0 :: rest.filter (fun g => g.name == g0.name && g.key == g0.key) := by
  simp [mergePeers, List.filter_cons]

/-- The merged result of a nonempty bucket whose members all carry key c
itself carries key c (for any positive fuel). -/
theorem mergeGroupsF_key (h : Char → Nat) (f : Nat) (b : List GroupL) (c : Char)
    (hb : b ≠ []) (hkeys : ∀ x ∈ b, x.key = c) : (mergeGroupsF h (f + 1) b).key = c := by
  cases b with
  | nil => exact absurd rfl hb
  | cons b0 brest =>
      have hkey0 : b0.key = c := hkeys b0 (List.mem_cons_self _ _)
      simp only [mergeGroupsF]
      split
      · rw [mergePeers_head]
        simpa [List.headD] using hkey0
      · simpa [GroupL.key] using hkey0

/-- Claim C3 (amended): whenever the merge pass actually runs (the
filtered peer list does not have exactly one element), the direct child
tasks of the merged group have pairwise-distinct keys and so do its
direct child groups.  A task and a group may still share a key (see
C1_counterexample), and a single-element input is returned unchanged
with whatever duplicates it already contained (see C3_counterexample). -/
theorem C3_children_key_nodup (h : Char → Nat) (gs : List GroupL)
    (hne : gs ≠ []) (hlen : (mergePeers gs).length ≠ 1) :
    ((mergeGroups h gs).tasks.map TaskL.key).Nodup ∧
      ((mergeGroups h gs).groups.map GroupL.key).Nodup := by
  cases gs with
  | nil => exact absurd rfl hne
  | cons g0 rest =>
      have hlenb : ((mergePeers (g0 :: rest)).length == 1) = false := by
        simpa using hlen
      rw [mergeGroups_body h g0 rest hlenb]
      simp only [GroupL.tasks, GroupL.groups]
      constructor
      · rw [List.map_map]
        have hcongr : (sortByKey h (buildMaps (mergePeers (g0 :: rest))).1).map
              (TaskL.key ∘ fun kv => kv.2) =
            (sortByKey h (buildMaps (mergePeers (g0 :: rest))).1).map Prod.fst := by
          apply List.map_congr_left
          intro kv hkv
          exact buildMaps_fst_keyed _ kv ((sortByKey_perm h _).mem_iff.1 hkv)
        rw [hcongr]
        exact ((sortByKey_perm h _).map Prod.fst).nodup_iff.2 (buildMaps_fst_keys_nodup _)
      · rcases Nat.exists_eq_add_of_lt (depthList_pos (l := g0 :: rest)
          (List.cons_ne_nil _ _)) with ⟨d, hd⟩
        rw [List.map_map]
        have hcongr : (sortByKey h (buildMaps (mergePeers (g0 :: rest))).2).map
              (GroupL.key ∘ fun kv => mergeGroupsF h (depthList (g0 :: rest)) kv.2) =
            (sortByKey h (buildMaps (mergePeers (g0 :: rest))).2).map Prod.fst := by
          apply List.map_congr_left
          intro kv hkv
          have hkv2 := (sortByKey_perm h _).mem_iff.1 hkv
          have hgood := buildMaps_snd_good _ kv hkv2
          have : depthList (g0 :: rest) = d + 1 := by omega
          simp only [Function.comp_apply, this]
          exact mergeGroupsF_key h d kv.2 kv.1 hgood.1 hgood.2
        rw [hcongr]
        exact ((sortByKey_perm h _).map Prod.fst).nodup_iff.2 (buildMaps_snd_keys_nodup _)

/-- Single source whose two direct child tasks share key a. -/
def c3Src : GroupL := GroupL.mk "ROOT" '_' [] [mkTask "u" 'a', mkTask "v" 'a']

/-- Claim C3 counterexample: a one-element input list is returned
unchanged by merge_groups - no normalisation runs - so its duplicate
child keys survive into the output, refuting pairwise distinctness for
every merged tree including the singleton case. -/
theorem C3_counterexample :
    ¬ (((mergeGroups hChar [c3Src]).groups.map GroupL.key) ++
        ((mergeGroups hChar [c3Src]).tasks.map TaskL.key)).Nodup := by
  decide

/-- First C3 witness source: subgroup g, task a. -/
def c3wA : GroupL := GroupL.mk "ROOT" '_' [GroupL.mk "ga" 'g' [] []] [mkTask "t1" 'a']

/-- Second C3 witness source: subgroup g, task b. -/
def c3wB : GroupL := GroupL.mk "ROOT" '_' [GroupL.mk "gb" 'g' [] []] [mkTask "t2" 'b']

/-- Claim C3 witness: concrete two-source merge with distinct child
task keys and distinct child group keys. -/
theorem C3_witness :
    ((mergeGroups hChar [c3wA, c3wB]).tasks.map TaskL.key).Nodup ∧
      ((mergeGroups hChar [c3wA, c3wB]).groups.map GroupL.key).Nodup :=
  C3_children_key_nodup hChar [c3wA, c3wB] (List.cons_ne_nil _ _) (by decide)

/-! ## Determinism of the merge up to child order -/

/-- Equality of group trees up to reordering of sibling lists: same
name and key, the task lists are permutations of each other, and the
child-group lists match up to a permutation (the list l) whose members
are pointwise equivalent. -/
inductive EquivG : GroupL → GroupL → Prop where
  | mk {n : String} {k : Char} {gs1 gs2 : List GroupL} {ts1 ts2 : List TaskL}
      (hts : ts1.Perm ts2) (l : List GroupL) (hperm : gs2.Perm l)
      (hlen : gs1.length = l.length)
      (hmem : ∀ (i : Nat) (hi1 : i < gs1.length) (hi2 : i < l.length),
        EquivG (gs1.get ⟨i, hi1⟩) (l.get ⟨i, hi2⟩)) :
      EquivG (GroupL.mk n k gs1 ts1) (GroupL.mk n k gs2 ts2)

theorem equivG_refl (g : GroupL) : EquivG g g := by
  suffices haux : ∀ n g, depth g ≤ n → EquivG g g from haux (depth g) g le_rfl
  intro n
  induction n with
  | zero =>
      intro g hg
      have := depth_pos g
      omega
  | succ n ih =>
      intro g hg
      cases g with
      | mk nm k gs ts =>
          refine EquivG.mk (List.Perm.refl _) gs (List.Perm.refl _) rfl ?_
          intro i hi1 hi2
          apply ih
          have h1 : depth (gs.get ⟨i, hi1⟩) ≤ depthList gs :=
            depth_le_depthList (List.get_mem gs i hi1)
          have h2 : depth (GroupL.mk nm k gs ts) = 1 + depthList gs := rfl
          omega

theorem mergeGroupsF_equiv (h1 h2 : Char → Nat) :
    ∀ f gs, EquivG (mergeGroupsF h1 f gs) (mergeGroupsF h2 f gs) := by
  intro f
  induction f with
  | zero => intro gs; exact equivG_refl _
  | succ f ih =>
      intro gs
      cases gs with
      | nil => exact equivG_refl _
      | cons g0 rest =>
          simp only [mergeGroupsF]
          split
          · exact equivG_refl _
          · refine EquivG.mk ?_ ((sortByKey h1 (buildMaps (mergePeers (g0 :: rest))).2).map
              (fun kv => mergeGroupsF h2 f kv.2)) ?_ (by simp) ?_
            · exact ((sortByKey_perm h1 _).trans (sortByKey_perm h2 _).symm).map _
            · exact ((sortByKey_perm h2 _).trans (sortByKey_perm h1 _).symm).map _
            · intro i hi1 hi2
              simp only [List.get_eq_getElem, List.getElem_map]
              exact ih _

/-- Claim C7 (amended): the merge is deterministic up to the order in
which each merged group lists its children: for any two hash-iteration
orders (which is the only thing that changes between two runs of the
program on equal input lists), the outputs have the same name and key,
the same child tasks up to permutation, and matching child groups up
to permutation, recursively.  The exact sibling order is not preserved
between runs (see C7_counterexample). -/
theorem C7_merge_deterministic_up_to_order (h1 h2 : Char → Nat) (gs : List GroupL) :
    EquivG (mergeGroups h1 gs) (mergeGroups h2 gs) :=
  mergeGroupsF_equiv h1 h2 _ gs

/-- First peer source for the C7 counterexample. -/
def c7A : GroupL := GroupL.mk "ROOT" '_' [] [mkTask "p" 'a']

/-- Second peer source for the C7 counterexample. -/
def c7B : GroupL := GroupL.mk "ROOT" '_' [] [mkTask "q" 'b']

/-- Claim C7 counterexample: the same input list merged under two hash
orders that can both occur across runs yields the surviving tasks in
different sibling orders, so the output trees (child order included)
are not equal between runs. -/
theorem C7_counterexample :
    (mergeGroups hChar [c7A, c7B]).tasks.map TaskL.key ≠
      (mergeGroups hCharRev [c7A, c7B]).tasks.map TaskL.key := by
  decide

/-! ## Claims about the confirmation dialog and the run step -/

/-- Claim C4 counterexample: with loop_mode set, Enter yields Continue,
which returns to selection, while q yields Exit, which leaves the whole
program - the two keys do not behave the same way. -/
theorem C4_counterexample :
    (confirmTask [KeyCodeL.Enter]).map (afterConfirm true) = some RunOutcomeL.toSelection ∧
      (confirmTask [KeyCodeL.CharKey 'q']).map (afterConfirm true) =
        some RunOutcomeL.exitProgram ∧
      RunOutcomeL.toSelection ≠ RunOutcomeL.exitProgram := by
  decide

/-- Claim C4 (amended): at the confirmation prompt, Enter obeys
loop_mode - back to selection when set, program exit otherwise - while
q and Esc always exit the whole program, regardless of loop_mode. -/
theorem C4_confirm_key_dispatch :
    ∀ lm : Bool,
      (confirmTask [KeyCodeL.Enter]).map (afterConfirm lm) =
        some (if lm then RunOutcomeL.toSelection else RunOutcomeL.exitProgram) ∧
      (confirmTask [KeyCodeL.CharKey 'q']).map (afterConfirm lm) =
        some RunOutcomeL.exitProgram ∧
      (confirmTask [KeyCodeL.Esc]).map (afterConfirm lm) = some RunOutcomeL.exitProgram := by
  decide

/-- Claim C5: after a task run, the confirmation prompt is shown if and
only if the exit status is a failure, or the task's own confirm flag is
set, or the global confirm flag is set. -/
theorem C5_prompt_shown_iff (opts : OptsL) (task : TaskL) (exitSuccess : Bool)
    (keys : List KeyCodeL) :
    (runTaskStep opts task exitSuccess keys).1 = true ↔
      (exitSuccess = false ∨ task.confirm = true ∨ opts.confirm = true) := by
  rw [runTaskStep]
  cases exitSuccess <;> cases hc : task.confirm <;> cases ho : opts.confirm <;> simp

/-! ## Claim about the grid layout -/

/-- Claim C6: the layout computation of draw_tasks is not total and has
no minimum-1 clamp: for every terminal width from 4 to 23 columns_fit
is 0 and div_ceil divides by zero (a runtime panic), and widths below 4
underflow the usize subtraction; width 24 is the first that works. -/
theorem C6_layout_not_total :
    drawLayout 20 1 = none ∧ drawLayout 23 7 = none ∧ drawLayout 3 1 = none ∧
      drawLayout 24 1 = some (1, 1) ∧ drawLayout 80 10 = some (3, 4) := by
  decide

/-! ## Claim about working-directory resolution -/

mutual

theorem allTasks_resolveGroup (ctx : Option PathL) :
    ∀ g, allTasks (resolveGroup ctx g) = (allTasks g).map (resolveTask ctx)
  | .mk n k gs ts => by
      simp only [resolveGroup, allTasks, List.map_append]
      rw [allTasksList_resolveGroupList ctx gs]

theorem allTasksList_resolveGroupList (ctx : Option PathL) :
    ∀ gs, allTasksList (resolveGroupList ctx gs) = (allTasksList gs).map (resolveTask ctx)
  | [] => rfl
  | g :: gs => by
      simp only [resolveGroupList, allTasksList, List.map_append]
      rw [allTasks_resolveGroup ctx g, allTasksList_resolveGroupList ctx gs]

end

/-- Claim C8: immediately after parsing, every task reachable under a
file's synthetic root is rewritten by resolveTask against the file's
containing directory (first conjunct), and for a task whose working_dir
is relative that rewrite prepends the containing directory's
components, with the controller's current directory playing no part
(tasksFromFile does not take it). -/
theorem C8_working_dir_resolution (path d : PathL) (gs : List GroupL) (ts : List TaskL)
    (hparent : path.parent = some d) :
    allTasks (tasksFromFile path gs ts) =
      (allTasks (GroupL.mk "ROOT" '_' gs ts)).map (resolveTask (some d)) ∧
    ∀ t ∈ allTasks (GroupL.mk "ROOT" '_' gs ts), ∀ wd, t.working_dir = some wd →
      wd.absolute = false →
      (resolveTask (some d) t).working_dir =
        some (PathL.mk d.absolute (d.components ++ wd.components)) := by
  constructor
  · rw [tasksFromFile, hparent]
    exact allTasks_resolveGroup (some d) _
  · intro t _ wd hwd habs
    simp only [resolveTask, hwd, Option.map_some]
    simp [PathL.join, habs]

/-- The config file of the C8 witness: /project/.ttr.yaml. -/
def c8Path : PathL := PathL.mk true ["project", ".ttr.yaml"]

/-- Its containing directory: /project. -/
def c8Dir : PathL := PathL.mk true ["project"]

/-- A task declaring the relative working_dir sub. -/
def c8Task : TaskL :=
  TaskL.mk "t" 't' "cmd" false false (some (PathL.mk false ["sub"])) [] false

/-- Claim C8 witness: working_dir sub declared in /project/.ttr.yaml
resolves to /project/sub. -/
theorem C8_witness :
    (resolveTask (some c8Dir) c8Task).working_dir = some (PathL.mk true ["project", "sub"]) :=
  (C8_working_dir_resolution c8Path c8Dir [] [c8Task] rfl).2 c8Task (by decide)
    (PathL.mk false ["sub"]) rfl rfl

/-! ## Claim about config discovery: the home tier -/

theorem walkF_mem (isFile : PathL → Bool) (stopDir : PathL) :
    ∀ (fuel : Nat) (od : Option PathL) (p : PathL), p ∈ walkF isFile stopDir fuel od →
      ∃ d, d ≠ stopDir ∧ p = d.join ttrConfig := by
  intro fuel
  induction fuel with
  | zero => intro od p hp; simp [walkF] at hp
  | succ fuel ih =>
      intro od p hp
      cases od with
      | none => simp [walkF] at hp
      | some d =>
          by_cases hds : d = stopDir
          · simp [walkF, hds] at hp
          · simp only [walkF, hds, if_false] at hp
            rcases List.mem_append.1 hp with hl | hr
            · by_cases hf : isFile (d.join ttrConfig) = true
              · rw [if_pos hf] at hl
                rcases List.mem_singleton.1 hl with rfl
                exact ⟨d, hds, rfl⟩
              · rw [Bool.not_eq_true] at hf
                rw [hf] at hl
                simp at hl
            · exact ih d.parent p hr

theorem join_ttrConfig_inj {d1 d2 : PathL} (he : d1.join ttrConfig = d2.join ttrConfig) :
    d1 = d2 := by
  simp only [PathL.join, ttrConfig, Bool.false_eq_true, if_false] at he
  have h1 := congrArg PathL.absolute he
  have h2 := congrArg PathL.components he
  simp only at h1 h2
  rw [List.append_left_inj] at h2
  cases d1
  cases d2
  simp only at h1 h2
  rw [h1, h2]

/-- Claim C9: with a home directory present and its config file on
disk, the discovery list contains the home config file exactly once:
the upward walk (which stops at the home directory before examining
it) never collects it, the home tier contributes it once, and the
config-directory tier is a different path by hypothesis. -/
theorem C9_home_config_once (isFile : PathL → Bool) (hd : PathL) (configDir : Option PathL)
    (startDir : PathL)
    (hfile : isFile (hd.join ttrConfig) = true)
    (hcfg : ∀ cd, configDir = some cd →
      (cd.join (PathL.mk false ["ttr"])).join ttrConfig ≠ hd.join ttrConfig) :
    List.count (hd.join ttrConfig) (readTasksPaths isFile (some hd) configDir startDir) = 1 := by
  have hwalk : List.count (hd.join ttrConfig)
      (walkF isFile hd (startDir.components.length + 1) (some startDir)) = 0 := by
    rw [List.count_eq_zero]
    intro hmem
    rcases walkF_mem isFile hd _ _ _ hmem with ⟨d2, hne, heq⟩
    exact hne (join_ttrConfig_inj heq).symm
  cases configDir with
  | none =>
      rw [readTasksPaths.eq_def]
      simp only [Option.getD_some, List.count_append, hwalk, if_pos hfile,
        List.count_singleton_self, List.count_nil]
  | some cd =>
      have hne2 := hcfg cd rfl
      rw [readTasksPaths.eq_def]
      simp only [Option.getD_some, List.count_append, hwalk, if_pos hfile,
        List.count_singleton_self]
      by_cases hf2 : isFile ((cd.join (PathL.mk false ["ttr"])).join ttrConfig) = true
      · rw [if_pos hf2]
        have hc0 : List.count (hd.join ttrConfig)
            [(cd.join (PathL.mk false ["ttr"])).join ttrConfig] = 0 := by
          rw [List.count_eq_zero]
          intro hmem
          exact hne2 (List.mem_singleton.1 hmem).symm
        rw [hc0]
      · rw [Bool.not_eq_true] at hf2
        simp [hf2]

/-- Home directory for the C9 witness. -/
def c9Home : PathL := PathL.mk true ["home", "u"]

/-- Start (current) directory for the C9 witness, inside home. -/
def c9Start : PathL := PathL.mk true ["home", "u", "proj"]

/-- A filesystem with config files at both the home directory and the
start directory. -/
def c9IsFile : PathL → Bool := fun p =>
  p == PathL.mk true ["home", "u", ".ttr.yaml"] ||
    p == PathL.mk true ["home", "u", "proj", ".ttr.yaml"]

/-- Claim C9 witness: walking up from /home/u/proj with a config file
at /home/u, the home config file appears exactly once in the
discovered list. -/
theorem C9_witness :
    List.count (c9Home.join ttrConfig) (readTasksPaths c9IsFile (some c9Home) none c9Start) = 1 :=
  C9_home_config_once c9IsFile c9Home none c9Start (by decide)
    (fun cd hcd => Option.noConfusion hcd)

/-! ## Claim about the navigation stack -/

/-- Case analysis on a Browsing transition of the navigation engine:
the stack is unchanged, one group is pushed, or (only when the depth
exceeds 1) the top is popped. -/
theorem navStep_browsing_cases {stack st' : List GroupL} {e : KeyEvL}
    (hstep : navStep stack e = .browsing st') :
    st' = stack ∨ (∃ g, st' = g :: stack) ∨ (stack.length > 1 ∧ st' = stack.tail) := by
  rcases e with ⟨code, ctrl⟩
  cases code with
  | Enter =>
      simp only [navStep] at hstep
      injection hstep with h
      exact Or.inl h.symm
  | Other =>
      simp only [navStep] at hstep
      injection hstep with h
      exact Or.inl h.symm
  | Backspace =>
      simp only [navStep] at hstep
      split at hstep
      · injection hstep with h
        exact Or.inl h.symm
      · injection hstep with h
        rename_i hlen
        exact Or.inr (Or.inr ⟨by omega, h.symm⟩)
  | Esc =>
      simp only [navStep] at hstep
      split at hstep
      · injection hstep with h
        exact Or.inl h.symm
      · injection hstep with h
        rename_i hlen
        exact Or.inr (Or.inr ⟨by omega, h.symm⟩)
  | CharKey c =>
      simp only [navStep] at hstep
      by_cases hq : c = 'q'
      · rw [if_pos hq] at hstep
        exact NavResultL.noConfusion hstep
      · rw [if_neg hq] at hstep
        by_cases hsp : c = ' '
        · rw [if_pos hsp] at hstep
          injection hstep with h
          exact Or.inl h.symm
        · rw [if_neg hsp] at hstep
          by_cases hct : ctrl = true
          · rw [if_pos hct] at hstep
            injection hstep with h
            exact Or.inl h.symm
          · rw [if_neg hct] at hstep
            cases hft : List.find? (fun t => t.key == c) ((stack.headD GroupL.default).tasks) with
            | some t =>
                rw [hft] at hstep
                exact NavResultL.noConfusion hstep
            | none =>
                rw [hft] at hstep
                cases hfg : List.find? (fun g => g.key == c)
                    ((stack.headD GroupL.default).groups) with
                | some g =>
                    rw [hfg] at hstep
                    injection hstep with h
                    exact Or.inr (Or.inl ⟨g, h.symm⟩)
                | none =>
                    rw [hfg] at hstep
                    injection hstep with h
                    exact Or.inl h.symm

/-- Claim C10: in every Browsing state reachable from the initial
stack holding just the root, the stack is non-empty and its bottom
element is the root, so reading the top of the stack never fails:
the stack starts as the singleton root, a pop happens only at depth
above 1, and every other transition keeps the stack or pushes on it. -/
theorem C10_stack_root_invariant (root : GroupL) (st : List GroupL)
    (hst : ReachableNav root st) : st ≠ [] ∧ st.getLast? = some root := by
  induction hst with
  | init => exact ⟨List.cons_ne_nil _ _, rfl⟩
  | step e hre hstep ih =>
      obtain ⟨hne, hlast⟩ := ih
      rcases navStep_browsing_cases hstep with rfl | ⟨g, rfl⟩ | ⟨hlen, rfl⟩
      · exact ⟨hne, hlast⟩
      · refine ⟨List.cons_ne_nil _ _, ?_⟩
        cases ‹List GroupL› with
        | nil => exact absurd rfl hne
        | cons b r =>
            rw [List.getLast?_cons_cons]
            exact hlast
      · rename_i stack
        cases stack with
        | nil => exact absurd rfl hne
        | cons b r =>
            cases r with
            | nil => simp at hlen
            | cons b2 r2 =>
                rw [List.getLast?_cons_cons] at hlast
                exact ⟨List.cons_ne_nil _ _, hlast⟩

/-- Subgroup used by the C10 witness. -/
def c10Sub : GroupL := GroupL.mk "sub" 's' [] []

/-- Root group used by the C10 witness. -/
def c10Root : GroupL := GroupL.mk "ROOT" '_' [c10Sub] []

/-- Pressing the unmodified character s. -/
def c10Key : KeyEvL := KeyEvL.mk (KeyCodeL.CharKey 's') false

/-- Claim C10 witness: after pushing the subgroup from the initial
state, the reached stack is non-empty with the root still at the
bottom. -/
theorem C10_witness :
    [c10Sub, c10Root] ≠ ([] : List GroupL) ∧
      [c10Sub, c10Root].getLast? = some c10Root :=
  C10_stack_root_invariant c10Root [c10Sub, c10Root]
    (ReachableNav.step c10Key ReachableNav.init rfl)
